import Mathlib

/-!
# Verification of `fast_whitespace_collapse::collapse_whitespace`

Shallow embedding of `src/lib.rs` over byte lists (`List Nat`, bytes are
`u8` values `< 256`; every operation of the source is parametric in the
byte value, so we model bytes as plain naturals).

The source function processes the input in two tiers:
* a bulk tier that, while at least 16 bytes remain, loads a 16-byte chunk,
  builds a per-lane whitespace mask with SIMD compares
  (`cmp_eq(space) | cmp_eq(tab)`, lanes `0xFF`/`0x00`), and walks the
  zipped (byte, mask) lanes left to right;
* a scalar tier for the remaining bytes, testing `b == b' ' || b == b'\t'`;
followed by popping a trailing space, if any.

The bulk tier is embedded with the chunk width as a parameter `W` (the
source fixes `W = 16`); `collapse_whitespace` instantiates `W := 16`.
-/

namespace FastWhitespaceCollapse

/-- One lane of `u8x16::cmp_eq`: `0xFF` if the lane equals the splatted
byte, else `0x00`. -/
def cmpEqLane (a b : Nat) : Nat := if a == b then 255 else 0

/-- The per-lane whitespace mask of a chunk:
`chunk.cmp_eq(space) | chunk.cmp_eq(tab)` (lanewise bitwise or). -/
def simdMask (chunk : List Nat) : List Nat :=
  chunk.map (fun b => Nat.lor (cmpEqLane b 32) (cmpEqLane b 9))

/-- Loop body of the bulk tier for one `(byte, mask_byte)` lane pair:
`is_whitespace = mask_byte == 0xFF`; on whitespace push a space only if
`!last_was_space`, otherwise push the original byte.  The state is
`(result, last_was_space)`. -/
def bulkLaneStep (st : List Nat × Bool) (bm : Nat × Nat) : List Nat × Bool :=
  if bm.2 == 255 then
    if !st.2 then (st.1 ++ [32], true) else st
  else
    (st.1 ++ [bm.1], false)

/-- Processing of one chunk in the bulk tier: zip the chunk with its SIMD
mask and walk the lanes in order. -/
def chunkEmit (st : List Nat × Bool) (chunk : List Nat) : List Nat × Bool :=
  (chunk.zip (simdMask chunk)).foldl bulkLaneStep st

/-- The bulk tier: `while i + W <= len` consume the next `W`-byte chunk.
Returns the unconsumed remainder together with the final state.  The
source uses `W = 16`; the width is a parameter here so that independence
from `W` can be stated. -/
def bulkTier (W : Nat) (bs : List Nat) (st : List Nat × Bool) :
    List Nat × (List Nat × Bool) :=
  if _h : 0 < W ∧ W ≤ bs.length then
    bulkTier W (bs.drop W) (chunkEmit st (bs.take W))
  else
    (bs, st)
termination_by bs.length
decreasing_by simp only [List.length_drop]; omega

/-- Loop body of the scalar tier for one byte:
`if b == b' ' || b == b'\t' { if !last_was_space { push(b' ') } } else { push(b) }`. -/
def scalarStep (st : List Nat × Bool) (b : Nat) : List Nat × Bool :=
  if b == 32 || b == 9 then
    if !st.2 then (st.1 ++ [32], true) else st
  else
    (st.1 ++ [b], false)

/-- The scalar tier: left-to-right loop of `scalarStep` over the bytes. -/
def scalarTier (bs : List Nat) (st : List Nat × Bool) : List Nat × Bool :=
  bs.foldl scalarStep st

/-- Trailing trim: `if result.last() == Some(&b' ') { result.pop(); }`. -/
def trimTrailing (l : List Nat) : List Nat :=
  if l.getLast? == some 32 then l.dropLast else l

/-- The whole function with chunk width `W`: state starts as
`(Vec::new(), last_was_space = true)`, bulk tier, scalar tier on the
remainder, trailing trim. -/
def collapseW (W : Nat) (input : List Nat) : List Nat :=
  let p := bulkTier W input ([], true)
  let r := scalarTier p.1 p.2
  trimTrailing r.1

/-- The function `collapse_whitespace` from `src/lib.rs`: the two-tier
algorithm at the source's chunk width 16. -/
def collapse_whitespace (input : List Nat) : List Nat :=
  collapseW 16 input

/-- The fully scalar single-pass reference implementation named by the
spec as the oracle: the scalar tier applied to the whole input, followed
by the same trailing trim. -/
def collapse_scalar (input : List Nat) : List Nat :=
  trimTrailing (scalarTier input ([], true)).1

/-! ## Spec-side definitions -/

/-- Collapsible whitespace per the glossary: an ASCII space (0x20) or tab
(0x09) byte. -/
def isWs (b : Nat) : Bool := b == 32 || b == 9

theorem length_dropWhile_le {α : Type} (p : α → Bool) (l : List α) :
    (l.dropWhile p).length ≤ l.length := by
  induction l with
  | nil => simp [List.dropWhile]
  | cons b rest ih =>
    simp only [List.dropWhile]
    split
    · exact Nat.le_trans ih (Nat.le_succ _)
    · exact Nat.le_refl _

/-- The maximal runs of non-whitespace bytes ("words") of the input, in
order.  Maximal runs of collapsible whitespace separate them (and leading
or trailing runs delimit nothing). -/
def wordsOf : List Nat → List (List Nat)
  | [] => []
  | b :: rest =>
    if isWs b then wordsOf rest
    else (b :: rest.takeWhile (fun c => !isWs c)) ::
      wordsOf (rest.dropWhile (fun c => !isWs c))
termination_by l => l.length
decreasing_by
  · simp
  · have h := length_dropWhile_le (fun c => !isWs c) rest
    simp only [List.length_cons]
    omega

/-- Join a list of words with single ASCII spaces between consecutive
words (the spec's "every maximal run ... replaced by exactly one space",
with runs touching the start or the end emitting nothing). -/
def joinWords : List (List Nat) → List Nat
  | [] => []
  | [w] => w
  | w :: v :: ws => w ++ 32 :: joinWords (v :: ws)

/-- The spec's description of the output: the words of the input joined
by single spaces. -/
def specCollapse (l : List Nat) : List Nat := joinWords (wordsOf l)

/-- Pure one-pass recursion computing the emitted bytes of the scalar
loop from a start flag (proof vehicle relating the tiers to `specCollapse`). -/
def collapseCore : List Nat → Bool → List Nat
  | [], _ => []
  | b :: rest, last =>
    if b == 32 || b == 9 then
      if !last then 32 :: collapseCore rest true else collapseCore rest true
    else
      b :: collapseCore rest false

/-- The value of the `last_was_space` flag after the scalar loop has
consumed `bs` starting from flag `last`. -/
def flagAfter : List Nat → Bool → Bool
  | [], last => last
  | b :: rest, _ =>
    if b == 32 || b == 9 then flagAfter rest true else flagAfter rest false

/-- Whether the input ends in a collapsible-whitespace byte. -/
def endsWS (l : List Nat) : Bool :=
  match l.getLast? with
  | some b => isWs b
  | none => false

/-- Whether the input contains at least one non-whitespace byte. -/
def hasWord (l : List Nat) : Bool := l.any (fun b => !isWs b)

/-- The spurious trailing separator the scalar loop appends when a
whitespace run closes the input after at least one word (removed by the
trailing trim). -/
def trailMark (l : List Nat) : List Nat :=
  if hasWord l && endsWS l then [32] else []

/-- The run-state invariant of the spec's data model: `last_was_space` is
true iff no byte has been appended yet or the last appended byte is the
collapsed space. -/
def stateInv (st : List Nat × Bool) : Prop :=
  st.2 = true ↔ (st.1 = [] ∨ st.1.getLast? = some 32)

/-- A UTF-8 continuation byte. -/
def isContByte (b : Nat) : Prop := 128 ≤ b ∧ b ≤ 191

/-- Well-formed UTF-8 byte sequences (RFC 3629 table: ASCII, and 2-, 3-,
4-byte sequences with the overlong/surrogate/range side conditions). -/
inductive Utf8Valid : List Nat → Prop
  | nil : Utf8Valid []
  | one {b : Nat} {rest : List Nat} :
      b ≤ 127 → Utf8Valid rest → Utf8Valid (b :: rest)
  | two {b c : Nat} {rest : List Nat} :
      194 ≤ b → b ≤ 223 → isContByte c → Utf8Valid rest →
      Utf8Valid (b :: c :: rest)
  | three {b c d : Nat} {rest : List Nat} :
      224 ≤ b → b ≤ 239 → isContByte c → isContByte d →
      (b = 224 → 160 ≤ c) → (b = 237 → c ≤ 159) → Utf8Valid rest →
      Utf8Valid (b :: c :: d :: rest)
  | four {b c d e : Nat} {rest : List Nat} :
      240 ≤ b → b ≤ 244 → isContByte c → isContByte d → isContByte e →
      (b = 240 → 144 ≤ c) → (b = 244 → c ≤ 143) → Utf8Valid rest →
      Utf8Valid (b :: c :: d :: e :: rest)

/-! ## Tier equivalence: the SIMD bulk tier refines the scalar tier -/

/-- A lane of the bulk tier, fed the mask the source computes for its
byte, acts exactly like the scalar-tier step for that byte. -/
theorem bulkLaneStep_eq_scalarStep (st : List Nat × Bool) (b : Nat) :
    bulkLaneStep st (b, Nat.lor (cmpEqLane b 32) (cmpEqLane b 9)) =
      scalarStep st b := by
  by_cases h32 : b = 32
  · subst h32
    have hm : Nat.lor (cmpEqLane 32 32) (cmpEqLane 32 9) = 255 := by decide
    simp [bulkLaneStep, scalarStep, hm]
  · by_cases h9 : b = 9
    · subst h9
      have hm : Nat.lor (cmpEqLane 9 32) (cmpEqLane 9 9) = 255 := by decide
      simp [bulkLaneStep, scalarStep, hm]
    · have hm : Nat.lor (cmpEqLane b 32) (cmpEqLane b 9) = 0 := by
        simp only [cmpEqLane, beq_iff_eq, h32, h9, if_false]
        decide
      simp [bulkLaneStep, scalarStep, hm, h32, h9]

theorem zip_map_self {α β : Type} (f : α → β) (l : List α) :
    l.zip (l.map f) = l.map (fun b => (b, f b)) := by
  induction l with
  | nil => rfl
  | cons b rest ih =>
    rw [List.map_cons, List.zip_cons_cons, ih, List.map_cons]

theorem zip_simdMask (chunk : List Nat) :
    chunk.zip (simdMask chunk) =
      chunk.map (fun b => (b, Nat.lor (cmpEqLane b 32) (cmpEqLane b 9))) := by
  rw [simdMask, zip_map_self]

/-- Processing a chunk through the bulk tier equals running the scalar
tier over the chunk's bytes. -/
theorem chunkEmit_eq_scalarTier (chunk : List Nat) (st : List Nat × Bool) :
    chunkEmit st chunk = scalarTier chunk st := by
  unfold chunkEmit scalarTier
  rw [zip_simdMask, List.foldl_map]
  induction chunk generalizing st with
  | nil => rfl
  | cons b rest ih =>
    simp only [List.foldl_cons, bulkLaneStep_eq_scalarStep, ih]

theorem scalarTier_append (xs ys : List Nat) (st : List Nat × Bool) :
    scalarTier (xs ++ ys) st = scalarTier ys (scalarTier xs st) := by
  unfold scalarTier
  simp [List.foldl_append]

/-- Running the bulk tier and then the scalar tier on whatever remains is
the same as running the scalar tier on everything, for every chunk
width `W`. -/
theorem bulkTier_then_scalar (W : Nat) (bs : List Nat) (st : List Nat × Bool) :
    scalarTier (bulkTier W bs st).1 (bulkTier W bs st).2 = scalarTier bs st := by
  induction bs, st using bulkTier.induct W with
  | case1 bs st h ih =>
    rw [bulkTier, dif_pos h]
    rw [ih, chunkEmit_eq_scalarTier, ← scalarTier_append, List.take_append_drop]
  | case2 bs st h =>
    rw [bulkTier, dif_neg h]

theorem scalarTier_eq_core (bs : List Nat) (acc : List Nat) (last : Bool) :
    scalarTier bs (acc, last) =
      (acc ++ collapseCore bs last, flagAfter bs last) := by
  induction bs generalizing acc last with
  | nil => simp [scalarTier, collapseCore, flagAfter]
  | cons b rest ih =>
    unfold scalarTier collapseCore flagAfter
    simp only [List.foldl_cons, scalarStep]
    by_cases hws : (b == 32 || b == 9) = true
    · simp only [hws, if_true]
      cases last with
      | true => simpa [scalarTier] using ih acc true
      | false =>
        have ih' := ih (acc ++ [32]) true
        rw [List.append_assoc, List.singleton_append] at ih'
        simpa [scalarTier] using ih'
    · simp only [hws]
      have ih' := ih (acc ++ [b]) false
      rw [List.append_assoc, List.singleton_append] at ih'
      simpa [scalarTier, hws] using ih'

/-- Every width gives the scalar reference's answer. -/
theorem collapseW_eq_scalar (W : Nat) (l : List Nat) :
    collapseW W l = collapse_scalar l := by
  show trimTrailing
      (scalarTier (bulkTier W l ([], true)).1 (bulkTier W l ([], true)).2).1 =
    collapse_scalar l
  rw [bulkTier_then_scalar]
  rfl

theorem collapse_scalar_eq_core (l : List Nat) :
    collapse_scalar l = trimTrailing (collapseCore l true) := by
  unfold collapse_scalar
  rw [scalarTier_eq_core l [] true]
  simp

theorem collapse_whitespace_eq_core (l : List Nat) :
    collapse_whitespace l = trimTrailing (collapseCore l true) := by
  rw [collapse_whitespace, collapseW_eq_scalar, collapse_scalar_eq_core]

/-! ## List helpers -/

theorem takeWhile_all {α : Type} (p : α → Bool) (l : List α)
    (h : ∀ b ∈ l, p b = true) : l.takeWhile p = l := by
  induction l with
  | nil => rfl
  | cons b rest ih =>
    simp only [List.takeWhile_cons, h b (List.mem_cons_self b rest), if_true]
    rw [ih fun c hc => h c (List.mem_cons_of_mem b hc)]

theorem dropWhile_all {α : Type} (p : α → Bool) (l : List α)
    (h : ∀ b ∈ l, p b = true) : l.dropWhile p = [] := by
  induction l with
  | nil => rfl
  | cons b rest ih =>
    simp only [List.dropWhile_cons, h b (List.mem_cons_self b rest), if_true]
    exact ih fun c hc => h c (List.mem_cons_of_mem b hc)

theorem takeWhile_append_stop {α : Type} (p : α → Bool) (w : List α) (c : α)
    (t : List α) (hw : ∀ b ∈ w, p b = true) (hc : p c = false) :
    (w ++ c :: t).takeWhile p = w := by
  induction w with
  | nil => simp [List.takeWhile_cons, hc]
  | cons b rest ih =>
    simp only [List.cons_append, List.takeWhile_cons,
      hw b (List.mem_cons_self b rest), if_true]
    rw [ih fun x hx => hw x (List.mem_cons_of_mem b hx)]

theorem dropWhile_append_stop {α : Type} (p : α → Bool) (w : List α) (c : α)
    (t : List α) (hw : ∀ b ∈ w, p b = true) (hc : p c = false) :
    (w ++ c :: t).dropWhile p = c :: t := by
  induction w with
  | nil => simp [List.dropWhile_cons, hc]
  | cons b rest ih =>
    simp only [List.cons_append, List.dropWhile_cons,
      hw b (List.mem_cons_self b rest), if_true]
    exact ih fun x hx => hw x (List.mem_cons_of_mem b hx)

/-! ## Facts about `collapseCore`, `endsWS`, `hasWord`, `wordsOf` -/

theorem collapseCore_ws_true (c : Nat) (r : List Nat) (hc : isWs c = true) :
    collapseCore (c :: r) true = collapseCore r true := by
  rw [isWs] at hc
  simp [collapseCore, hc]

theorem collapseCore_ws_false (c : Nat) (r : List Nat) (hc : isWs c = true) :
    collapseCore (c :: r) false = 32 :: collapseCore r true := by
  rw [isWs] at hc
  simp [collapseCore, hc]

theorem collapseCore_nonws_head (b : Nat) (r : List Nat) (last : Bool)
    (hb : isWs b = false) :
    collapseCore (b :: r) last = b :: collapseCore r false := by
  rw [isWs] at hb
  simp [collapseCore, hb]

theorem collapseCore_nonws_prepend (w r : List Nat)
    (hw : ∀ c ∈ w, isWs c = false) :
    collapseCore (w ++ r) false = w ++ collapseCore r false := by
  induction w with
  | nil => rfl
  | cons b rest ih =>
    rw [List.cons_append,
      collapseCore_nonws_head b (rest ++ r) false (hw b (List.mem_cons_self b rest)),
      ih fun c hc => hw c (List.mem_cons_of_mem b hc), List.cons_append]

theorem endsWS_cons_cons (b c : Nat) (rest : List Nat) :
    endsWS (b :: c :: rest) = endsWS (c :: rest) := by
  unfold endsWS
  rw [List.getLast?_cons_cons]

theorem endsWS_append (a r : List Nat) (hr : r ≠ []) :
    endsWS (a ++ r) = endsWS r := by
  unfold endsWS
  rw [List.getLast?_append_of_ne_nil a hr]

theorem endsWS_of_all_ws (r : List Nat) (hne : r ≠ [])
    (h : ∀ b ∈ r, isWs b = true) : endsWS r = true := by
  induction r with
  | nil => exact absurd rfl hne
  | cons b rest ih =>
    cases rest with
    | nil => simp [endsWS, h b (List.mem_cons_self b [])]
    | cons c rest' =>
      rw [endsWS_cons_cons]
      exact ih (List.cons_ne_nil c rest') fun x hx => h x (List.mem_cons_of_mem b hx)

theorem endsWS_of_all_notWs (l : List Nat) (h : ∀ b ∈ l, isWs b = false) :
    endsWS l = false := by
  induction l with
  | nil => rfl
  | cons b rest ih =>
    cases rest with
    | nil => simp [endsWS, h b (List.mem_cons_self b [])]
    | cons c rest' =>
      rw [endsWS_cons_cons]
      exact ih fun x hx => h x (List.mem_cons_of_mem b hx)

theorem hasWord_eq_false_iff (l : List Nat) :
    hasWord l = false ↔ ∀ b ∈ l, isWs b = true := by
  simp [hasWord]

theorem wordsOf_eq_nil_iff (l : List Nat) :
    wordsOf l = [] ↔ ∀ b ∈ l, isWs b = true := by
  induction l using wordsOf.induct with
  | case1 => simp [wordsOf]
  | case2 b rest hb ih =>
    rw [wordsOf, if_pos hb]
    rw [ih]
    constructor
    · intro h x hx
      rcases List.mem_cons.1 hx with h' | h'
      · exact h' ▸ hb
      · exact h x h'
    · intro h x hx
      exact h x (List.mem_cons_of_mem b hx)
  | case3 b rest hb ih =>
    rw [wordsOf, if_neg hb]
    constructor
    · intro h
      exact absurd h (List.cons_ne_nil _ _)
    · intro h
      exact absurd (h b (List.mem_cons_self b rest)) (by simpa using hb)

theorem hasWord_of_wordsOf_ne_nil (l : List Nat) (h : wordsOf l ≠ []) :
    hasWord l = true := by
  by_contra hc
  have h0 : hasWord l = false := by
    cases hh : hasWord l
    · rfl
    · exact absurd hh hc
  exact h ((wordsOf_eq_nil_iff l).2 ((hasWord_eq_false_iff l).1 h0))

theorem trailMark_cons_ws (b : Nat) (rest : List Nat) (hb : isWs b = true) :
    trailMark (b :: rest) = trailMark rest := by
  cases rest with
  | nil =>
    simp [trailMark, hasWord, hb]
  | cons c rest' =>
    unfold trailMark
    rw [endsWS_cons_cons]
    have : hasWord (b :: c :: rest') = hasWord (c :: rest') := by
      simp [hasWord, hb]
    rw [this]

theorem dropWhile_head_false {α : Type} (p : α → Bool) (l : List α) (c : α)
    (r : List α) (h : l.dropWhile p = c :: r) : p c = false := by
  induction l with
  | nil => simp [List.dropWhile] at h
  | cons b rest ih =>
    rw [List.dropWhile_cons] at h
    split at h
    · exact ih h
    · next hb =>
      cases h
      cases hpc : p c
      · rfl
      · exact absurd hpc hb

/-- The scalar loop from the initial `last_was_space = true` state computes
the words of the input joined by single spaces, plus one spurious
trailing separator exactly when a whitespace run closes an input that has
at least one word. -/
theorem collapseCore_true_eq (l : List Nat) :
    collapseCore l true = joinWords (wordsOf l) ++ trailMark l := by
  induction l using wordsOf.induct with
  | case1 => simp [collapseCore, wordsOf, joinWords, trailMark, hasWord]
  | case2 b rest hb ih =>
    rw [collapseCore_ws_true b rest hb, ih, wordsOf, if_pos hb,
      trailMark_cons_ws b rest hb]
  | case3 b rest hb ih =>
    have hb' : isWs b = false := by simpa using hb
    obtain ⟨w, r, hrest, hwmem, hih, hwords, hr⟩ :
        ∃ w r, rest = w ++ r ∧ (∀ c ∈ w, isWs c = false) ∧
          collapseCore r true = joinWords (wordsOf r) ++ trailMark r ∧
          wordsOf (b :: rest) = (b :: w) :: wordsOf r ∧
          (r = [] ∨ ∃ c r', r = c :: r' ∧ isWs c = true) := by
      refine ⟨rest.takeWhile (fun c => !isWs c), rest.dropWhile (fun c => !isWs c),
        (List.takeWhile_append_dropWhile _ _).symm, ?_, ih, ?_, ?_⟩
      · intro c hc
        simpa using List.mem_takeWhile_imp hc
      · rw [wordsOf, if_neg hb]
      · cases hd : rest.dropWhile (fun c => !isWs c) with
        | nil => exact Or.inl rfl
        | cons c r' =>
          refine Or.inr ⟨c, r', rfl, ?_⟩
          have := dropWhile_head_false (fun x => !isWs x) rest c r' hd
          simpa using this
    rw [hwords, hrest]
    rw [collapseCore_nonws_head b (w ++ r) true hb',
      collapseCore_nonws_prepend w r hwmem]
    have hwall : ∀ x ∈ b :: w, isWs x = false := by
      intro x hx
      rcases List.mem_cons.1 hx with h' | h'
      · exact h' ▸ hb'
      · exact hwmem x h'
    rcases hr with rfl | ⟨c, r', rfl, hc⟩
    · have htm : trailMark (b :: w) = [] := by
        unfold trailMark
        rw [endsWS_of_all_notWs (b :: w) hwall]
        simp
      simp only [List.append_nil]
      rw [htm]
      simp [wordsOf, joinWords, collapseCore]
    · have hcc : collapseCore (c :: r') false = 32 :: collapseCore (c :: r') true := by
        rw [collapseCore_ws_false c r' hc, collapseCore_ws_true c r' hc]
      rw [hcc, hih]
      have hends : endsWS (b :: (w ++ c :: r')) = endsWS (c :: r') :=
        endsWS_append (b :: w) (c :: r') (List.cons_ne_nil c r')
      cases hwr : wordsOf (c :: r') with
      | nil =>
        have hallws : ∀ x ∈ c :: r', isWs x = true := (wordsOf_eq_nil_iff _).1 hwr
        have htr : trailMark (c :: r') = [] := by
          unfold trailMark
          rw [(hasWord_eq_false_iff _).2 hallws]
          simp
        have htm : trailMark (b :: (w ++ c :: r')) = [32] := by
          unfold trailMark
          rw [hends, endsWS_of_all_ws (c :: r') (List.cons_ne_nil c r') hallws]
          simp [hasWord, hb']
        rw [htr, htm]
        simp [joinWords]
      | cons w₂ ws₂ =>
        have hhw : hasWord (c :: r') = true :=
          hasWord_of_wordsOf_ne_nil (c :: r') (by rw [hwr]; exact List.cons_ne_nil _ _)
        have htm : trailMark (b :: (w ++ c :: r')) = trailMark (c :: r') := by
          unfold trailMark
          rw [hends, hhw]
          have hbw : hasWord (b :: (w ++ c :: r')) = true := by
            simp [hasWord, hb']
          rw [hbw]
        rw [htm]
        simp [joinWords, List.append_assoc]

theorem wordsOf_ne_nil (l : List Nat) : ∀ w ∈ wordsOf l, w ≠ [] := by
  induction l using wordsOf.induct with
  | case1 => simp [wordsOf]
  | case2 b rest hb ih =>
    rw [wordsOf, if_pos hb]
    exact ih
  | case3 b rest hb ih =>
    rw [wordsOf, if_neg hb]
    intro w hw
    rcases List.mem_cons.1 hw with rfl | h'
    · exact List.cons_ne_nil _ _
    · exact ih w h'

theorem wordsOf_noWs (l : List Nat) :
    ∀ w ∈ wordsOf l, ∀ b ∈ w, isWs b = false := by
  induction l using wordsOf.induct with
  | case1 => simp [wordsOf]
  | case2 b rest hb ih =>
    rw [wordsOf, if_pos hb]
    exact ih
  | case3 b rest hb ih =>
    rw [wordsOf, if_neg hb]
    intro w hw x hx
    rcases List.mem_cons.1 hw with rfl | h'
    · rcases List.mem_cons.1 hx with rfl | h''
      · simpa using hb
      · simpa using List.mem_takeWhile_imp h''
    · exact ih w h' x hx

theorem joinWords_ne_nil (v : List Nat) (ws : List (List Nat)) (hv : v ≠ []) :
    joinWords (v :: ws) ≠ [] := by
  cases ws with
  | nil => simpa [joinWords] using hv
  | cons u us => simp [joinWords]

theorem endsWS_joinWords (ws : List (List Nat)) (h1 : ∀ w ∈ ws, w ≠ [])
    (h2 : ∀ w ∈ ws, ∀ b ∈ w, isWs b = false) :
    endsWS (joinWords ws) = false := by
  induction ws with
  | nil => rfl
  | cons v us ih =>
    cases us with
    | nil =>
      have : joinWords [v] = v := by simp [joinWords]
      rw [this]
      exact endsWS_of_all_notWs v (h2 v (List.mem_cons_self v []))
    | cons u uus =>
      have hj : joinWords (v :: u :: uus) = v ++ 32 :: joinWords (u :: uus) := by
        simp [joinWords]
      rw [hj, endsWS_append v _ (List.cons_ne_nil _ _)]
      have hne : joinWords (u :: uus) ≠ [] :=
        joinWords_ne_nil u uus (h1 u (List.mem_cons_of_mem v (List.mem_cons_self u uus)))
      obtain ⟨j, J', hJ⟩ := List.exists_cons_of_ne_nil hne
      have ihr : endsWS (joinWords (u :: uus)) = false :=
        ih (fun w hw => h1 w (List.mem_cons_of_mem v hw))
          (fun w hw => h2 w (List.mem_cons_of_mem v hw))
      rw [hJ] at ihr
      rw [hJ, endsWS_cons_cons]
      exact ihr

theorem head_joinWords_ne_32 (ws : List (List Nat)) (h1 : ∀ w ∈ ws, w ≠ [])
    (h2 : ∀ w ∈ ws, ∀ b ∈ w, isWs b = false) :
    (joinWords ws).head? ≠ some 32 := by
  cases ws with
  | nil => simp [joinWords]
  | cons v us =>
    obtain ⟨x, v', rfl⟩ := List.exists_cons_of_ne_nil (h1 v (List.mem_cons_self v us))
    have hx : isWs x = false :=
      h2 _ (List.mem_cons_self _ us) x (List.mem_cons_self x v')
    have hx32 : x ≠ 32 := by
      rw [isWs] at hx
      intro he
      subst he
      simp at hx
    cases us with
    | nil => simpa [joinWords] using hx32
    | cons u uus => simpa [joinWords] using hx32

theorem getLast?_ne_32_of_endsWS_false (l : List Nat) (h : endsWS l = false) :
    l.getLast? ≠ some 32 := by
  intro hc
  unfold endsWS at h
  rw [hc] at h
  simp [isWs] at h

theorem trimTrailing_append_space (l : List Nat) :
    trimTrailing (l ++ [32]) = l := by
  unfold trimTrailing
  rw [List.getLast?_append_of_ne_nil l (List.cons_ne_nil _ _)]
  simp

theorem trimTrailing_no_space (l : List Nat) (h : l.getLast? ≠ some 32) :
    trimTrailing l = l := by
  unfold trimTrailing
  rw [if_neg (by simpa using h)]

/-- Trimming the scalar loop's result yields exactly the words of the
input joined by single spaces. -/
theorem trim_core_eq_spec (l : List Nat) :
    trimTrailing (collapseCore l true) = specCollapse l := by
  rw [collapseCore_true_eq, specCollapse]
  unfold trailMark
  by_cases hm : (hasWord l && endsWS l) = true
  · rw [if_pos hm, trimTrailing_append_space]
  · rw [if_neg hm, List.append_nil]
    exact trimTrailing_no_space _ (getLast?_ne_32_of_endsWS_false _
      (endsWS_joinWords (wordsOf l) (wordsOf_ne_nil l) (wordsOf_noWs l)))

/-- The bridge used by most claims: the source function computes the
spec-side description. -/
theorem collapse_eq_spec (l : List Nat) :
    collapse_whitespace l = specCollapse l := by
  rw [collapse_whitespace_eq_core, trim_core_eq_spec]

/-! ## Non-whitespace preservation -/

theorem filter_collapseCore (l : List Nat) (last : Bool) :
    (collapseCore l last).filter (fun b => !(b == 32 || b == 9)) =
      l.filter (fun b => !(b == 32 || b == 9)) := by
  induction l generalizing last with
  | nil => rfl
  | cons b rest ih =>
    by_cases hws : (b == 32 || b == 9) = true
    · have hb : isWs b = true := hws
      cases last with
      | true =>
        rw [collapseCore_ws_true b rest hb, ih true, List.filter_cons]
        have hcond : (!(b == 32 || b == 9)) = false := by rw [hws]; rfl
        simp [hcond]
      | false =>
        rw [collapseCore_ws_false b rest hb]
        rw [List.filter_cons, List.filter_cons]
        simp only [hws]
        simpa using ih true
    · have hb : isWs b = false := by simpa [isWs] using hws
      rw [collapseCore_nonws_head b rest last hb]
      rw [List.filter_cons, List.filter_cons]
      simp only [hws]
      simpa using ih false

theorem filter_trimTrailing (x : List Nat) (p : Nat → Bool) (hp : p 32 = false) :
    (trimTrailing x).filter p = x.filter p := by
  unfold trimTrailing
  split
  · next h =>
    have h32 : x.getLast? = some 32 := by simpa using h
    have hx : x.dropLast ++ [32] = x :=
      List.dropLast_append_getLast? 32 (by simp [Option.mem_def, h32])
    conv_rhs => rw [← hx]
    simp [List.filter_append, hp]
  · rfl

/-! ## Idempotence support: `wordsOf` is stable on joined words -/

theorem wordsOf_joinWords (ws : List (List Nat)) (h1 : ∀ w ∈ ws, w ≠ [])
    (h2 : ∀ w ∈ ws, ∀ b ∈ w, isWs b = false) :
    wordsOf (joinWords ws) = ws := by
  induction ws with
  | nil => simp [joinWords, wordsOf]
  | cons v us ih =>
    obtain ⟨x, v', rfl⟩ := List.exists_cons_of_ne_nil (h1 _ (List.mem_cons_self _ us))
    have hv : ∀ b ∈ x :: v', isWs b = false := h2 _ (List.mem_cons_self _ us)
    have hx : isWs x = false := hv x (List.mem_cons_self x v')
    have hv' : ∀ b ∈ v', (fun c => !isWs c) b = true := by
      intro b hb
      simp [hv b (List.mem_cons_of_mem x hb)]
    cases us with
    | nil =>
      show wordsOf (joinWords [x :: v']) = [x :: v']
      have hj : joinWords [x :: v'] = x :: v' := by simp [joinWords]
      rw [hj, wordsOf, if_neg (by simp [hx])]
      rw [takeWhile_all _ v' hv', dropWhile_all _ v' hv', wordsOf]
    | cons u uus =>
      have hj : joinWords ((x :: v') :: u :: uus) =
          x :: (v' ++ 32 :: joinWords (u :: uus)) := by
        simp [joinWords]
      rw [hj, wordsOf, if_neg (by simp [hx])]
      rw [takeWhile_append_stop _ v' 32 _ hv' (by simp [isWs])]
      rw [dropWhile_append_stop _ v' 32 _ hv' (by simp [isWs])]
      rw [wordsOf, if_pos (by simp [isWs])]
      rw [ih (fun w hw => h1 w (List.mem_cons_of_mem _ hw))
        (fun w hw => h2 w (List.mem_cons_of_mem _ hw))]

/-! ## Identity on whitespace-free input -/

theorem collapseCore_all_notWs (l : List Nat) (h : ∀ b ∈ l, isWs b = false) :
    collapseCore l true = l := by
  cases l with
  | nil => rfl
  | cons b rest =>
    rw [collapseCore_nonws_head b rest true (h b (List.mem_cons_self b rest))]
    have := collapseCore_nonws_prepend rest []
      (fun c hc => h c (List.mem_cons_of_mem b hc))
    rw [List.append_nil] at this
    rw [this]
    simp [collapseCore]

/-! ## No double spaces -/

theorem chain_of_no32 (v : List Nat) (h : ∀ b ∈ v, isWs b = false) :
    List.Chain' (fun a b : Nat => ¬(a = 32 ∧ b = 32)) v := by
  induction v with
  | nil => exact List.chain'_nil
  | cons b rest ih =>
    cases rest with
    | nil => exact List.chain'_singleton b
    | cons c r =>
      rw [List.chain'_cons]
      constructor
      · intro hc
        have := h b (List.mem_cons_self b _)
        rw [hc.1, isWs] at this
        simp at this
      · exact ih fun x hx => h x (List.mem_cons_of_mem b hx)

theorem chain_joinWords (ws : List (List Nat)) (h1 : ∀ w ∈ ws, w ≠ [])
    (h2 : ∀ w ∈ ws, ∀ b ∈ w, isWs b = false) :
    List.Chain' (fun a b : Nat => ¬(a = 32 ∧ b = 32)) (joinWords ws) := by
  induction ws with
  | nil => exact List.chain'_nil
  | cons v us ih =>
    cases us with
    | nil =>
      have hj : joinWords [v] = v := by simp [joinWords]
      rw [hj]
      exact chain_of_no32 v (h2 v (List.mem_cons_self v []))
    | cons u uus =>
      have hj : joinWords (v :: u :: uus) = v ++ 32 :: joinWords (u :: uus) := by
        simp [joinWords]
      rw [hj, List.chain'_append]
      refine ⟨chain_of_no32 v (h2 v (List.mem_cons_self v _)), ?_, ?_⟩
      · obtain ⟨j, J', hJ⟩ := List.exists_cons_of_ne_nil
          (joinWords_ne_nil u uus (h1 u (List.mem_cons_of_mem v (List.mem_cons_self u uus))))
        have hih := ih (fun w hw => h1 w (List.mem_cons_of_mem v hw))
          (fun w hw => h2 w (List.mem_cons_of_mem v hw))
        have hj32 : j ≠ 32 := by
          have hhead := head_joinWords_ne_32 (u :: uus)
            (fun w hw => h1 w (List.mem_cons_of_mem v hw))
            (fun w hw => h2 w (List.mem_cons_of_mem v hw))
          rw [hJ] at hhead
          intro he
          exact hhead (by subst he; rfl)
        rw [hJ] at hih ⊢
        rw [List.chain'_cons]
        exact ⟨fun hc => hj32 hc.2, hih⟩
      · intro x hx y hy
        rw [List.head?_cons, Option.mem_some_iff] at hy
        subst hy
        intro hc
        have hlast : v.getLast? ≠ some 32 :=
          getLast?_ne_32_of_endsWS_false v
            (endsWS_of_all_notWs v (h2 v (List.mem_cons_self v _)))
        rw [Option.mem_def] at hx
        rw [hc.1] at hx
        exact hlast hx

/-! ## Output bytes are input bytes or the ASCII space -/

theorem mem_collapseCore (l : List Nat) (last : Bool) (b : Nat)
    (hb : b ∈ collapseCore l last) : b ∈ l ∨ b = 32 := by
  induction l generalizing last with
  | nil => simp [collapseCore] at hb
  | cons c rest ih =>
    by_cases hws : (c == 32 || c == 9) = true
    · cases last with
      | true =>
        rw [collapseCore_ws_true c rest hws] at hb
        rcases ih true hb with h' | h'
        · exact Or.inl (List.mem_cons_of_mem c h')
        · exact Or.inr h'
      | false =>
        rw [collapseCore_ws_false c rest hws] at hb
        rcases List.mem_cons.1 hb with rfl | h'
        · exact Or.inr rfl
        · rcases ih true h' with h'' | h''
          · exact Or.inl (List.mem_cons_of_mem c h'')
          · exact Or.inr h''
    · rw [collapseCore_nonws_head c rest last (by simpa [isWs] using hws)] at hb
      rcases List.mem_cons.1 hb with rfl | h'
      · exact Or.inl (List.mem_cons_self b rest)
      · rcases ih false h' with h'' | h''
        · exact Or.inl (List.mem_cons_of_mem c h'')
        · exact Or.inr h''

theorem mem_trimTrailing (x : List Nat) (b : Nat) (hb : b ∈ trimTrailing x) :
    b ∈ x := by
  unfold trimTrailing at hb
  split at hb
  · exact List.dropLast_subset x hb
  · exact hb

/-! ## Whitespace runs act like a single space -/

theorem collapseCore_ws_run_true (r : List Nat) (hws : ∀ x ∈ r, isWs x = true)
    (t : List Nat) : collapseCore (r ++ t) true = collapseCore t true := by
  induction r with
  | nil => rfl
  | cons c r' ih =>
    rw [List.cons_append, collapseCore_ws_true c _ (hws c (List.mem_cons_self c r'))]
    exact ih fun x hx => hws x (List.mem_cons_of_mem c hx)

theorem collapseCore_ws_run (r : List Nat) (hne : r ≠ [])
    (hws : ∀ x ∈ r, isWs x = true) (t : List Nat) (last : Bool) :
    collapseCore (r ++ t) last = collapseCore (32 :: t) last := by
  obtain ⟨c, r', rfl⟩ := List.exists_cons_of_ne_nil hne
  have hc : isWs c = true := hws c (List.mem_cons_self c r')
  have hr' : ∀ x ∈ r', isWs x = true := fun x hx => hws x (List.mem_cons_of_mem c hx)
  cases last with
  | true =>
    rw [List.cons_append, collapseCore_ws_true c _ hc, collapseCore_ws_run_true r' hr' t,
      collapseCore_ws_true 32 t (by simp [isWs])]
  | false =>
    rw [List.cons_append, collapseCore_ws_false c _ hc, collapseCore_ws_run_true r' hr' t,
      collapseCore_ws_false 32 t (by simp [isWs])]

theorem collapseCore_append (a u : List Nat) (last : Bool) :
    collapseCore (a ++ u) last =
      collapseCore a last ++ collapseCore u (flagAfter a last) := by
  induction a generalizing last with
  | nil => simp [collapseCore, flagAfter]
  | cons c a' ih =>
    have hfa : ∀ lt : Bool, flagAfter (c :: a') lt =
        if (c == 32 || c == 9) = true then flagAfter a' true
        else flagAfter a' false := by
      intro lt
      rw [flagAfter]
    by_cases hws : (c == 32 || c == 9) = true
    · cases last with
      | true =>
        rw [List.cons_append, collapseCore_ws_true c _ hws, ih true,
          collapseCore_ws_true c a' hws, hfa true, if_pos hws]
      | false =>
        rw [List.cons_append, collapseCore_ws_false c _ hws, ih true,
          collapseCore_ws_false c a' hws, hfa false, if_pos hws]
        rfl
    · have hb : isWs c = false := by simpa [isWs] using hws
      rw [List.cons_append, collapseCore_nonws_head c _ last hb, ih false,
        collapseCore_nonws_head c a' last hb, hfa last, if_neg hws]
      rfl

/-! ## UTF-8 validity is preserved -/

theorem ws_false_of_ge_128 (b : Nat) (hb : 128 ≤ b) :
    (b == 32 || b == 9) = false := by
  have h1 : b ≠ 32 := by omega
  have h2 : b ≠ 9 := by omega
  simp [h1, h2]

theorem ws_false_of_ge_194 (b : Nat) (hb : 194 ≤ b) :
    (b == 32 || b == 9) = false :=
  ws_false_of_ge_128 b (by omega)

theorem utf8_collapseCore (l : List Nat) (h : Utf8Valid l) (last : Bool) :
    Utf8Valid (collapseCore l last) := by
  induction h generalizing last with
  | nil => exact Utf8Valid.nil
  | @one b rest hb hv ih =>
    by_cases hws : (b == 32 || b == 9) = true
    · cases last with
      | true =>
        rw [collapseCore_ws_true b rest hws]
        exact ih true
      | false =>
        rw [collapseCore_ws_false b rest hws]
        exact Utf8Valid.one (by omega) (ih true)
    · rw [collapseCore_nonws_head b rest last (by simpa [isWs] using hws)]
      exact Utf8Valid.one hb (ih false)
  | @two b c rest h1 h2 hc hv ih =>
    rw [collapseCore_nonws_head b (c :: rest) last (ws_false_of_ge_194 b h1),
      collapseCore_nonws_head c rest false (ws_false_of_ge_128 c hc.1)]
    exact Utf8Valid.two h1 h2 hc (ih false)
  | @three b c d rest h1 h2 hc hd he0 hed hv ih =>
    rw [collapseCore_nonws_head b (c :: d :: rest) last (ws_false_of_ge_194 b (by omega)),
      collapseCore_nonws_head c (d :: rest) false (ws_false_of_ge_128 c hc.1),
      collapseCore_nonws_head d rest false (ws_false_of_ge_128 d hd.1)]
    exact Utf8Valid.three h1 h2 hc hd he0 hed (ih false)
  | @four b c d e rest h1 h2 hc hd he hf0 hf4 hv ih =>
    rw [collapseCore_nonws_head b (c :: d :: e :: rest) last
        (ws_false_of_ge_194 b (by omega)),
      collapseCore_nonws_head c (d :: e :: rest) false (ws_false_of_ge_128 c hc.1),
      collapseCore_nonws_head d (e :: rest) false (ws_false_of_ge_128 d hd.1),
      collapseCore_nonws_head e rest false (ws_false_of_ge_128 e he.1)]
    exact Utf8Valid.four h1 h2 hc hd he hf0 hf4 (ih false)

theorem utf8_drop_space (l : List Nat) (h : Utf8Valid l) :
    ∀ xs, l = xs ++ [32] → Utf8Valid xs := by
  induction h with
  | nil =>
    intro xs hx
    exact absurd hx.symm (by simp)
  | @one b rest hb hv ih =>
    intro xs hx
    cases xs with
    | nil =>
      simp only [List.nil_append, List.cons.injEq] at hx
      rw [hx.2] at hv
      exact Utf8Valid.nil
    | cons y ys =>
      simp only [List.cons_append, List.cons.injEq] at hx
      obtain ⟨rfl, h2⟩ := hx
      exact Utf8Valid.one hb (ih ys h2)
  | @two b c rest h1 h2 hc hv ih =>
    intro xs hx
    cases xs with
    | nil =>
      simp only [List.nil_append, List.cons.injEq] at hx
      omega
    | cons y ys =>
      cases ys with
      | nil =>
        simp only [List.cons_append, List.nil_append, List.cons.injEq] at hx
        obtain ⟨-, hc32, -⟩ := hx
        have := hc.1
        omega
      | cons z zs =>
        simp only [List.cons_append, List.cons.injEq] at hx
        obtain ⟨rfl, rfl, h3⟩ := hx
        exact Utf8Valid.two h1 h2 hc (ih zs h3)
  | @three b c d rest h1 h2 hc hd he0 hed hv ih =>
    intro xs hx
    cases xs with
    | nil =>
      simp only [List.nil_append, List.cons.injEq] at hx
      omega
    | cons y ys =>
      cases ys with
      | nil =>
        simp only [List.cons_append, List.nil_append, List.cons.injEq] at hx
        obtain ⟨-, hc32, -⟩ := hx
        have := hc.1
        omega
      | cons z zs =>
        cases zs with
        | nil =>
          simp only [List.cons_append, List.nil_append, List.cons.injEq] at hx
          obtain ⟨-, -, hd32, -⟩ := hx
          have := hd.1
          omega
        | cons w ws =>
          simp only [List.cons_append, List.cons.injEq] at hx
          obtain ⟨rfl, rfl, rfl, h4⟩ := hx
          exact Utf8Valid.three h1 h2 hc hd he0 hed (ih ws h4)
  | @four b c d e rest h1 h2 hc hd he hf0 hf4 hv ih =>
    intro xs hx
    cases xs with
    | nil =>
      simp only [List.nil_append, List.cons.injEq] at hx
      omega
    | cons y ys =>
      cases ys with
      | nil =>
        simp only [List.cons_append, List.nil_append, List.cons.injEq] at hx
        obtain ⟨-, hc32, -⟩ := hx
        have := hc.1
        omega
      | cons z zs =>
        cases zs with
        | nil =>
          simp only [List.cons_append, List.nil_append, List.cons.injEq] at hx
          obtain ⟨-, -, hd32, -⟩ := hx
          have := hd.1
          omega
        | cons w ws =>
          cases ws with
          | nil =>
            simp only [List.cons_append, List.nil_append, List.cons.injEq] at hx
            obtain ⟨-, -, -, he32, -⟩ := hx
            have := he.1
            omega
          | cons v vs =>
            simp only [List.cons_append, List.cons.injEq] at hx
            obtain ⟨rfl, rfl, rfl, rfl, h5⟩ := hx
            exact Utf8Valid.four h1 h2 hc hd he hf0 hf4 (ih vs h5)

theorem utf8_trimTrailing (x : List Nat) (h : Utf8Valid x) :
    Utf8Valid (trimTrailing x) := by
  unfold trimTrailing
  split
  · next hg =>
    have h32 : x.getLast? = some 32 := by simpa using hg
    have hx : x.dropLast ++ [32] = x :=
      List.dropLast_append_getLast? 32 (by simp [Option.mem_def, h32])
    exact utf8_drop_space x h x.dropLast hx.symm
  · exact h

theorem scalarStep_inv (st : List Nat × Bool) (b : Nat) (hst : stateInv st) :
    stateInv (scalarStep st b) := by
  obtain ⟨acc, flag⟩ := st
  unfold scalarStep
  by_cases hws : (b == 32 || b == 9) = true
  · rw [if_pos hws]
    cases flag with
    | true => exact hst
    | false =>
      show stateInv (acc ++ [32], true)
      unfold stateInv
      constructor
      · intro _
        right
        rw [List.getLast?_append_of_ne_nil acc (List.cons_ne_nil 32 [])]
        rfl
      · intro _
        rfl
  · rw [if_neg hws]
    have hb32 : b ≠ 32 := by
      intro he
      subst he
      simp at hws
    unfold stateInv
    constructor
    · intro h
      simp at h
    · intro h
      rcases h with h | h
      · exact absurd h (by simp)
      · rw [List.getLast?_append_of_ne_nil acc (List.cons_ne_nil b [])] at h
        simp only [List.getLast?_singleton, Option.some.injEq] at h
        exact absurd h hb32

/-! ## The claims -/

/-- C1: for every input, every maximal contiguous run of space/tab bytes
collapses to exactly one space unless it touches the input's start or
end, in which case it emits nothing, tabs and spaces triggering alike:
the output is the input's whitespace-free words joined by single spaces;
in particular an empty or all-whitespace input yields the empty output. -/
theorem C1_maximal_runs (l : List Nat) :
    collapse_whitespace l = specCollapse l ∧
      ((∀ b ∈ l, isWs b = true) → collapse_whitespace l = []) := by
  refine ⟨collapse_eq_spec l, fun h => ?_⟩
  rw [collapse_eq_spec l, specCollapse, (wordsOf_eq_nil_iff l).2 h]
  rfl

theorem C1_maximal_runs_witness : collapse_whitespace [32, 9, 32] = [] :=
  (C1_maximal_runs [32, 9, 32]).2 (by decide)

/-- C2: the two-tier implementation (16-byte bulk tier plus scalar
remainder loop) returns exactly the fully scalar single-pass reference's
answer, and the result is the same for every positive processing width,
so chunk-boundary placement of whitespace runs cannot matter. -/
theorem C2_width_independent (l : List Nat) :
    collapse_whitespace l = collapse_scalar l ∧
      ∀ W, 0 < W → collapseW W l = collapse_scalar l :=
  ⟨collapseW_eq_scalar 16 l, fun W _ => collapseW_eq_scalar W l⟩

theorem C2_width_independent_witness :
    collapseW 5 [97, 97, 97, 97, 32, 32, 98] =
      collapse_scalar [97, 97, 97, 97, 32, 32, 98] :=
  (C2_width_independent [97, 97, 97, 97, 32, 32, 98]).2 5 (by decide)

/-- C3: deleting all space and tab bytes from the input yields exactly
the same byte sequence, in the same order, as deleting them from the
output: every other byte passes through unmodified. -/
theorem C3_strip_ws_eq (l : List Nat) :
    (collapse_whitespace l).filter (fun b => !(b == 32 || b == 9)) =
      l.filter (fun b => !(b == 32 || b == 9)) := by
  rw [collapse_whitespace_eq_core, filter_trimTrailing _ _ (by rfl),
    filter_collapseCore]

/-- C4: the output never contains two consecutive space bytes. -/
theorem C4_no_double_space (l : List Nat) :
    List.Chain' (fun a b : Nat => ¬(a = 32 ∧ b = 32)) (collapse_whitespace l) := by
  rw [collapse_eq_spec l]
  exact chain_joinWords (wordsOf l) (wordsOf_ne_nil l) (wordsOf_noWs l)

/-- C5: the output neither starts nor ends with a space byte (vacuously
when it is empty). -/
theorem C5_no_edge_space (l : List Nat) :
    (collapse_whitespace l).head? ≠ some 32 ∧
      (collapse_whitespace l).getLast? ≠ some 32 := by
  rw [collapse_eq_spec l]
  exact ⟨head_joinWords_ne_32 _ (wordsOf_ne_nil l) (wordsOf_noWs l),
    getLast?_ne_32_of_endsWS_false _
      (endsWS_joinWords _ (wordsOf_ne_nil l) (wordsOf_noWs l))⟩

/-- C6: `collapse_whitespace` is idempotent. -/
theorem C6_idempotent (l : List Nat) :
    collapse_whitespace (collapse_whitespace l) = collapse_whitespace l := by
  rw [collapse_eq_spec l, collapse_eq_spec (specCollapse l)]
  show joinWords (wordsOf (joinWords (wordsOf l))) = joinWords (wordsOf l)
  rw [wordsOf_joinWords (wordsOf l) (wordsOf_ne_nil l) (wordsOf_noWs l)]

/-- C7: bytes other than 0x20/0x09 are never collapsible (the newline
0x0A in particular), an interior space/tab run behaves exactly like a
single space, and the spec's example holds literally:
`collapse("Line1\n   Line2\nLine3") = "Line1\n Line2\nLine3"`. -/
theorem C7_other_bytes_pass :
    isWs 10 = false ∧
    collapse_whitespace
        [76, 105, 110, 101, 49, 10, 32, 32, 32, 76, 105, 110, 101, 50, 10,
          76, 105, 110, 101, 51] =
      [76, 105, 110, 101, 49, 10, 32, 76, 105, 110, 101, 50, 10,
        76, 105, 110, 101, 51] ∧
    ∀ a r b, r ≠ [] → (∀ x ∈ r, isWs x = true) →
      collapse_whitespace (a ++ r ++ b) = collapse_whitespace (a ++ 32 :: b) := by
  refine ⟨by decide, ?_, ?_⟩
  · rw [collapse_whitespace, collapseW_eq_scalar]
    rfl
  · intro a r b hne hws
    rw [collapse_whitespace_eq_core, collapse_whitespace_eq_core]
    congr 1
    rw [List.append_assoc, collapseCore_append a (r ++ b) true,
      collapseCore_ws_run r hne hws b (flagAfter a true),
      collapseCore_append a (32 :: b) true]

theorem C7_other_bytes_pass_witness :
    collapse_whitespace ([65] ++ [9, 32] ++ [66]) =
      collapse_whitespace ([65] ++ 32 :: [66]) :=
  C7_other_bytes_pass.2.2 [65] [9, 32] [66] (by decide) (by decide)

/-- C8: the bulk tier's 16-byte chunk extraction always yields exactly 16
bytes, every byte the function appends is an input byte or the ASCII
space 0x20, and on UTF-8-valid input the output is again valid UTF-8, so
the final unchecked reinterpretation is sound. -/
theorem C8_total_safe :
    (∀ bs : List Nat, 16 ≤ bs.length → (bs.take 16).length = 16) ∧
    (∀ l b, b ∈ collapse_whitespace l → b ∈ l ∨ b = 32) ∧
    (∀ l, Utf8Valid l → Utf8Valid (collapse_whitespace l)) := by
  refine ⟨?_, ?_, ?_⟩
  · intro bs h
    rw [List.length_take]
    omega
  · intro l b hb
    rw [collapse_whitespace_eq_core] at hb
    exact mem_collapseCore l true b (mem_trimTrailing _ b hb)
  · intro l h
    rw [collapse_whitespace_eq_core]
    exact utf8_trimTrailing _ (utf8_collapseCore l h true)

theorem C8_total_safe_witness :
    (([10, 11, 12, 13, 14, 15, 16, 17, 18, 19, 20, 21, 22, 23, 24, 25,
        26].take 16).length = 16) ∧
    (65 ∈ [32, 65] ∨ (65 : Nat) = 32) ∧
    Utf8Valid (collapse_whitespace [195, 169, 32, 32, 65]) :=
  ⟨C8_total_safe.1 _ (by decide),
    C8_total_safe.2.1 [32, 65] 65
      (by rw [collapse_whitespace, collapseW_eq_scalar]; decide),
    C8_total_safe.2.2 [195, 169, 32, 32, 65]
      (Utf8Valid.two (by decide) (by decide) ⟨by decide, by decide⟩
        (Utf8Valid.one (by decide) (Utf8Valid.one (by decide)
          (Utf8Valid.one (by decide) Utf8Valid.nil))))⟩

/-- C9: the run-state flag invariant — `last_was_space` is true iff
nothing was appended yet or the last appended byte is the collapsed
space — holds at initialization and is preserved by every per-byte step
of both the scalar tier and the bulk tier (the latter fed the mask the
source computes for the byte). -/
theorem C9_flag_invariant :
    stateInv (([] : List Nat), true) ∧
    (∀ st b, stateInv st → stateInv (scalarStep st b)) ∧
    (∀ st b, stateInv st →
      stateInv (bulkLaneStep st (b, Nat.lor (cmpEqLane b 32) (cmpEqLane b 9)))) := by
  refine ⟨by simp [stateInv], scalarStep_inv, ?_⟩
  intro st b hst
  rw [bulkLaneStep_eq_scalarStep]
  exact scalarStep_inv st b hst

theorem C9_flag_invariant_witness : stateInv (scalarStep ([], true) 97) :=
  C9_flag_invariant.2.1 ([], true) 97 (by simp [stateInv])

/-- C10: on input containing no space and no tab byte the function is
the identity. -/
theorem C10_identity_on_ws_free (l : List Nat) (h : ∀ b ∈ l, isWs b = false) :
    collapse_whitespace l = l := by
  rw [collapse_whitespace_eq_core, collapseCore_all_notWs l h]
  exact trimTrailing_no_space l
    (getLast?_ne_32_of_endsWS_false l (endsWS_of_all_notWs l h))

theorem C10_identity_on_ws_free_witness :
    collapse_whitespace [72, 10, 105] = [72, 10, 105] :=
  C10_identity_on_ws_free [72, 10, 105] (by decide)

end FastWhitespaceCollapse
